import Mathlib

/-!
Verification development for the `lab_6_pipeline` CONLL-U annotation pipeline.

The Python source (`src/lab_6_pipeline/pipeline.py`) is shallowly embedded:
strings are Lean `String`s (logically lists of `Char`), the external sentence
splitter and morphological analyzer are pure function parameters, the tag
mapping table is a function parameter `TagMapping`, file-system state is an
explicit store, and fallible operations return `Option`/`Except`.
-/

namespace Pipeline

/-! ### Character classes

Models of the Python character classes used by the pipeline's regexes and
string predicates.  Python's `\w` and `str.isalpha` are Unicode-aware; the
corpus is Russian, so the model covers ASCII plus the Cyrillic block
(U+0400–U+04FF), which is the alphabet the pipeline actually sees.
-/

/-- Model of Python's `\w` word-character class (letters, digits, underscore),
restricted to ASCII alphanumerics, `_`, and the Cyrillic block. -/
def isWordChar (c : Char) : Bool :=
  c.isAlphanum || c == '_' || decide (0x400 ≤ c.toNat ∧ c.toNat ≤ 0x4FF)

/-- Model of the regex character class `[а-я]` (lowercase Cyrillic а..я,
U+0430..U+044F) used by `MystemTagConverter.convert_morphological_tags`. -/
def isMystemLowerChar (c : Char) : Bool :=
  decide (0x430 ≤ c.toNat ∧ c.toNat ≤ 0x44F)

/-- Model of the regex character class `[A-Z]` used by
`MystemTagConverter.convert_pos`. -/
def isUpperAsciiChar (c : Char) : Bool :=
  decide ('A' ≤ c ∧ c ≤ 'Z')

/-- Model of Python's `str.isalpha` character test (alphabetic), restricted to
ASCII letters and the Cyrillic block. -/
def isAlphaPyChar (c : Char) : Bool :=
  c.isAlpha || decide (0x400 ≤ c.toNat ∧ c.toNat ≤ 0x4FF)

/-- Python `s.isalpha()`: nonempty and all characters alphabetic. -/
def isAlphaPy (s : String) : Bool :=
  !s.data.isEmpty && s.data.all isAlphaPyChar

/-- Python `s.isdigit()`: nonempty and all characters digits. -/
def isDigitPy (s : String) : Bool :=
  !s.data.isEmpty && s.data.all Char.isDigit

/-! ### Maximal runs of characters

`charRuns p l` is the list of maximal nonempty runs of characters satisfying
`p`, in order of appearance: the model of `re.findall(r'[CLASS]+', s)` and of
the first match of `re.search(r'[CLASS]+', s)` (its head).
-/

/-- Core of `charRuns`: returns the run at the head of the list (possibly
empty) together with the remaining runs. -/
def charRunsCore (p : Char → Bool) : List Char → List Char × List (List Char)
  | [] => ([], [])
  | c :: cs =>
    let r := charRunsCore p cs
    if p c then (c :: r.1, r.2)
    else ([], if r.1.isEmpty then r.2 else r.1 :: r.2)

/-- All maximal nonempty runs of `p`-characters in `l`, in order. -/
def charRuns (p : Char → Bool) (l : List Char) : List (List Char) :=
  let r := charRunsCore p l
  if r.1.isEmpty then r.2 else r.1 :: r.2

theorem charRunsCore_eq_nil (p : Char → Bool) (l : List Char)
    (h : ∀ c ∈ l, p c = false) : charRunsCore p l = ([], []) := by
  induction l with
  | nil => rfl
  | cons c cs ih =>
    have hc : p c = false := h c (List.mem_cons_self c cs)
    have ihx : charRunsCore p cs = ([], []) :=
      ih (fun d hd => h d (List.mem_cons_of_mem c hd))
    simp [charRunsCore, hc, ihx]

theorem charRuns_eq_nil (p : Char → Bool) (l : List Char)
    (h : ∀ c ∈ l, p c = false) : charRuns p l = [] := by
  simp [charRuns, charRunsCore_eq_nil p l h]

/-! ### String joining and splitting -/

/-- Model of Python's `sep.join(parts)`. -/
def joinWith (sep : String) : List String → String
  | [] => ""
  | [s] => s
  | s :: ss => s ++ sep ++ joinWith sep ss

/-- Model of `joinWith` at the character-list level, with a single separator char. -/
def joinWithChar (sep : Char) : List (List Char) → List Char
  | [] => []
  | [p] => p
  | p :: ps => p ++ sep :: joinWithChar sep ps

/-- Split a character list on a separator character (model of
`str.split(sep)` on the underlying characters).  Never returns `[]`. -/
def splitOnCharList (sep : Char) : List Char → List (List Char)
  | [] => [[]]
  | c :: cs =>
    match splitOnCharList sep cs with
    | [] => [[c]]
    | p :: ps => if c = sep then [] :: p :: ps else (c :: p) :: ps

theorem splitOnCharList_ne_nil (sep : Char) (l : List Char) :
    splitOnCharList sep l ≠ [] := by
  cases l with
  | nil => simp [splitOnCharList]
  | cons c cs =>
    simp only [splitOnCharList]
    cases splitOnCharList sep cs with
    | nil => simp
    | cons p ps =>
      by_cases h : c = sep <;> simp [h]

theorem splitOnCharList_sepFree (sep : Char) (l : List Char)
    (h : ∀ c ∈ l, c ≠ sep) : splitOnCharList sep l = [l] := by
  induction l with
  | nil => rfl
  | cons c cs ih =>
    have hc : c ≠ sep := h c (List.mem_cons_self c cs)
    have ihx : splitOnCharList sep cs = [cs] :=
      ih (fun d hd => h d (List.mem_cons_of_mem c hd))
    simp [splitOnCharList, ihx, hc]

theorem splitOnCharList_append (sep : Char) (pt rest : List Char)
    (h : ∀ c ∈ pt, c ≠ sep) :
    splitOnCharList sep (pt ++ sep :: rest) = pt :: splitOnCharList sep rest := by
  induction pt with
  | nil =>
    simp only [List.nil_append, splitOnCharList]
    cases hr : splitOnCharList sep rest with
    | nil => exact absurd hr (splitOnCharList_ne_nil sep rest)
    | cons p ps => simp
  | cons c cs ih =>
    have hc : c ≠ sep := h c (List.mem_cons_self c cs)
    have ihx := ih (fun d hd => h d (List.mem_cons_of_mem c hd))
    simp only [List.cons_append, splitOnCharList, List.append_eq, ihx, if_neg hc]

/-- Round trip: splitting a separator-joined list of separator-free parts
recovers the parts. -/
theorem splitOnCharList_joinWithChar (sep : Char) (parts : List (List Char))
    (hne : parts ≠ []) (hfree : ∀ pt ∈ parts, ∀ c ∈ pt, c ≠ sep) :
    splitOnCharList sep (joinWithChar sep parts) = parts := by
  induction parts with
  | nil => exact absurd rfl hne
  | cons p ps ih =>
    cases ps with
    | nil =>
      simp only [joinWithChar]
      exact splitOnCharList_sepFree sep p (hfree p (List.mem_cons_self p []))
    | cons q qs =>
      have hp : ∀ c ∈ p, c ≠ sep := hfree p (List.mem_cons_self p (q :: qs))
      have ihx : splitOnCharList sep (joinWithChar sep (q :: qs)) = q :: qs :=
        ih (by simp) (fun pt hpt => hfree pt (List.mem_cons_of_mem p hpt))
      show splitOnCharList sep (p ++ sep :: joinWithChar sep (q :: qs)) = p :: q :: qs
      rw [splitOnCharList_append sep p _ hp, ihx]

theorem digitChar_ne_tab (n : Nat) : Nat.digitChar n ≠ '\t' := by
  unfold Nat.digitChar
  rcases Nat.lt_or_ge n 16 with h | h
  · interval_cases n <;> decide
  · repeat rw [if_neg (by omega)]
    decide

theorem toDigitsCore_mem (b fuel n : Nat) (ds : List Char) :
    ∀ c ∈ Nat.toDigitsCore b fuel n ds, c ∈ ds ∨ ∃ m, c = Nat.digitChar m := by
  induction fuel generalizing n ds with
  | zero => intro c hc; exact Or.inl hc
  | succ fuel ih =>
    intro c hc
    simp only [Nat.toDigitsCore] at hc
    split at hc
    · rw [List.mem_cons] at hc
      rcases hc with h | h
      · exact Or.inr ⟨n % b, h⟩
      · exact Or.inl h
    · rcases ih (n / b) (Nat.digitChar (n % b) :: ds) c hc with h | h
      · rw [List.mem_cons] at h
        rcases h with h | h
        · exact Or.inr ⟨n % b, h⟩
        · exact Or.inl h
      · exact Or.inr h

/-- The decimal representation of a natural number contains no tab
character (so `str(position)` never adds a column to the CONLL-U line). -/
theorem natRepr_ne_tab (n : Nat) : ∀ c ∈ (Nat.repr n).data, c ≠ '\t' := by
  intro c hc
  have hmem : c ∈ Nat.toDigitsCore 10 (n + 1) n [] := hc
  rcases toDigitsCore_mem 10 (n + 1) n [] c hmem with h | ⟨m, hm⟩
  · exact absurd h (List.not_mem_nil c)
  · exact hm ▸ digitChar_ne_tab m

theorem joinWith_data (sc : Char) (sep : String) (hsep : sep.data = [sc]) :
    ∀ parts : List String,
      (joinWith sep parts).data = joinWithChar sc (parts.map String.data)
  | [] => rfl
  | [s] => rfl
  | s :: s2 :: ss => by
    show (s ++ sep ++ joinWith sep (s2 :: ss)).data
        = s.data ++ sc :: joinWithChar sc ((s2 :: ss).map String.data)
    rw [String.data_append, String.data_append, hsep,
      joinWith_data sc sep hsep (s2 :: ss)]
    simp

/-! ### String literal constants used by the pipeline -/

def emptyStr : String := ""
def underscoreStr : String := "_"
def zeroStr : String := "0"
def rootStr : String := "root"
def tabStr : String := "\t"
def pipeStr : String := "|"
def eqSignStr : String := "="
def newlineStr : String := "\n"
def spaceStr : String := " "
def xPosStr : String := "X"
def numPosStr : String := "NUM"
def punctPosStr : String := "PUNCT"
def sentIdHeaderStr : String := "# sent_id = "
def textHeaderStr : String := "# text = "

/-- Modelled from the spec: the category names exposed by the `TagConverter`
base class in `core_utils/article/ud.py` (not under `src/`): `self.pos`,
`self.case`, `self.number`, `self.gender`, `self.animacy`, `self.tense` are
the mapping-table category keys `pos, case, number, gender, animacy, tense`. -/
def catPos : String := "pos"
def catCase : String := "case"
def catNumber : String := "number"
def catGender : String := "gender"
def catAnimacy : String := "animacy"
def catTense : String := "tense"

/-! ### Token and sentence data model (`pipeline.py`, lines 93–195) -/

/-- Model of `MorphologicalTokenDTO.__init__`: lemma, POS and feats tags of a token. -/
structure MorphologicalTokenDTO where
  «lemma» : String := emptyStr
  pos : String := emptyStr
  tags : String := emptyStr
deriving DecidableEq, Repr

/-- Model of `ConlluToken`: surface text, 1-based position and morphological
parameters (`_text`, `position`, `_morphological_parameters`). -/
structure ConlluToken where
  text : String
  position : Nat := 0
  morph : MorphologicalTokenDTO := {}
deriving DecidableEq, Repr

/-- The ten fields joined by `ConlluToken.get_conllu_text` (lines 132–148):
`position, text, lemma, pos, xpos, feats, head, deprel, deps, misc`.
`feats` is the Python expression
`tags if include_morphological_tags and tags else '_'`. -/
def ConlluToken.conlluFields (t : ConlluToken) (includeMorphologicalTags : Bool) :
    List String :=
  let feats :=
    if includeMorphologicalTags = true ∧ t.morph.tags ≠ emptyStr
    then t.morph.tags else underscoreStr
  [Nat.repr t.position, t.text, t.morph.«lemma», t.morph.pos,
    underscoreStr, feats, zeroStr, rootStr, underscoreStr, underscoreStr]

/-- Model of `ConlluToken.get_conllu_text`: the ten fields joined with tabs. -/
def ConlluToken.get_conllu_text (t : ConlluToken)
    (includeMorphologicalTags : Bool) : String :=
  joinWith tabStr (t.conlluFields includeMorphologicalTags)

/-- Model of `ConlluToken.get_cleaned` (line 150–154): `re.sub(r'\W+', '', text.lower())`,
i.e. lower-case the surface text and drop all non-word characters.
`pyLowerChar` models `str.lower` on ASCII and the Cyrillic block. -/
def pyLowerChar (c : Char) : Char :=
  if 'A' ≤ c ∧ c ≤ 'Z' then Char.ofNat (c.toNat + 32)
  else if 0x410 ≤ c.toNat ∧ c.toNat ≤ 0x42F then Char.ofNat (c.toNat + 32)
  else if c.toNat = 0x401 then Char.ofNat 0x451
  else c

def ConlluToken.get_cleaned (t : ConlluToken) : String :=
  String.mk ((t.text.data.map pyLowerChar).filter (fun c => isWordChar c))

/-- Model of `ConlluSentence`: 0-based position, original text, tokens. -/
structure ConlluSentence where
  position : Nat
  text : String
  tokens : List ConlluToken
deriving DecidableEq, Repr

/-- Model of `ConlluSentence._format_tokens`: newline-joined token lines. -/
def ConlluSentence.format_tokens (s : ConlluSentence)
    (includeMorphologicalTags : Bool) : String :=
  joinWith newlineStr (s.tokens.map (fun t => t.get_conllu_text includeMorphologicalTags))

/-- Model of `ConlluSentence.get_conllu_text`: two comment lines, the token lines and a
trailing newline. -/
def ConlluSentence.get_conllu_text (s : ConlluSentence)
    (includeMorphologicalTags : Bool) : String :=
  sentIdHeaderStr ++ Nat.repr s.position ++ newlineStr
    ++ textHeaderStr ++ s.text ++ newlineStr
    ++ s.format_tokens includeMorphologicalTags ++ newlineStr

/-- Model of `ConlluSentence.get_cleaned_sentence`: space-join the nonempty cleaned
token strings, then strip. -/
def ConlluSentence.get_cleaned_sentence (s : ConlluSentence) : String :=
  (joinWith spaceStr ((s.tokens.map ConlluToken.get_cleaned).filter
    (fun c => c ≠ emptyStr))).trim

/-! ### Tag converters (`pipeline.py`, lines 197–255) -/

/-- The converter mapping table `self._tag_mapping`: category name → native
tag token → UD value.  `none` models "not a key of the table".  The table is
loaded from an external JSON configuration file, so theorems quantify over
it. -/
def TagMapping : Type := String → String → Option String

/-- Membership/lookup in the Python dict `ud_tags` (insertion-ordered,
modelled as an association list). -/
def alistLookup (ud : List (String × String)) (cat : String) : Option String :=
  (ud.find? (fun p => p.1 == cat)).map Prod.snd

/-- The fixed priority order `(self.case, self.number, self.gender,
self.animacy, self.tense)` of line 210. -/
def mystemPriorityCategories : List String :=
  [catCase, catNumber, catGender, catAnimacy, catTense]

/-- The inner `for category in (...)` loop of
`MystemTagConverter.convert_morphological_tags` (lines 210–213): the first
category whose table contains `tag` and which is not yet in `ud` receives
`tag`'s mapped value (then `break`); otherwise the loop falls through. -/
def mystemAssignTag (m : TagMapping) (tag : String)
    (ud : List (String × String)) : List String → List (String × String)
  | [] => ud
  | cat :: cats =>
    match m cat tag, alistLookup ud cat with
    | some v, none => ud ++ [(cat, v)]
    | _, _ => mystemAssignTag m tag ud cats

/-- Model of `f'{cat}={val}'`. -/
def formatPair (p : String × String) : String := p.1 ++ eqSignStr ++ p.2

/-- Python's comparison on `(category, value)` pairs, as used by
`sorted(ud_tags.items())`: lexicographic on the pair. -/
def pairLe (x y : String × String) : Prop :=
  x.1 < y.1 ∨ (x.1 = y.1 ∧ x.2 ≤ y.2)

instance pairLeDecidable : DecidableRel pairLe := fun x y =>
  inferInstanceAs (Decidable (x.1 < y.1 ∨ (x.1 = y.1 ∧ x.2 ≤ y.2)))

instance pairLeTotal : IsTotal (String × String) pairLe := ⟨fun x y => by
  rcases lt_trichotomy x.1 y.1 with h | h | h
  · exact Or.inl (Or.inl h)
  · rcases le_total x.2 y.2 with h2 | h2
    · exact Or.inl (Or.inr ⟨h, h2⟩)
    · exact Or.inr (Or.inr ⟨h.symm, h2⟩)
  · exact Or.inr (Or.inl h)⟩

instance pairLeTrans : IsTrans (String × String) pairLe := ⟨fun x y z hxy hyz => by
  rcases hxy with h1 | ⟨e1, l1⟩
  · rcases hyz with h2 | ⟨e2, l2⟩
    · exact Or.inl (h1.trans h2)
    · exact Or.inl (e2 ▸ h1)
  · rcases hyz with h2 | ⟨e2, l2⟩
    · exact Or.inl (e1 ▸ h2)
    · exact Or.inr ⟨e1.trans e2, l1.trans l2⟩⟩

/-- Comparison by category name only (the spec's "sorted by category
name"). -/
def keyLe (x y : String × String) : Prop := x.1 ≤ y.1

instance keyLeDecidable : DecidableRel keyLe := fun x y =>
  inferInstanceAs (Decidable (x.1 ≤ y.1))

instance keyLeTotal : IsTotal (String × String) keyLe := ⟨fun x y => le_total x.1 y.1⟩

instance keyLeTrans : IsTrans (String × String) keyLe := ⟨fun _ _ _ h1 h2 => h1.trans h2⟩

/-- Strict comparison by category name (used to identify the two sorted
lists when the keys are distinct). -/
def keyLt (x y : String × String) : Prop := x.1 < y.1

instance keyLtAntisymm : IsAntisymm (String × String) keyLt :=
  ⟨fun _ _ h1 h2 => absurd h2 (lt_asymm h1)⟩

/-- Model of `MystemTagConverter.convert_morphological_tags` (lines 202–216):
candidates are the `[а-я]+` runs; each is offered to the priority categories
(first match into an unfilled category wins); the resulting dict items are
sorted (Python pair comparison) and pipe-joined as `category=value`. -/
def mystemConvertMorphologicalTags (m : TagMapping) (tags : String) : String :=
  let tagList := (charRuns isMystemLowerChar tags.data).map String.mk
  let udTags := tagList.foldl
    (fun ud tag => mystemAssignTag m tag ud mystemPriorityCategories) []
  joinWith pipeStr ((List.insertionSort pairLe udTags).map formatPair)

/-- Follows the spec's words for Variant A: candidate token goes to the
first category (in the fixed priority order) whose table contains it and
which is not yet filled. -/
def specAssignTagA (m : TagMapping) (tag : String)
    (ud : List (String × String)) : List (String × String) :=
  match mystemPriorityCategories.find?
      (fun cat => (m cat tag).isSome && (alistLookup ud cat).isNone) with
  | some cat =>
    match m cat tag with
    | some v => ud ++ [(cat, v)]
    | none => ud
  | none => ud

/-- Follows the spec's words for Variant A's output: the resolved
`category=value` pairs joined with `|`, sorted by category name. -/
def specConvertMorphologicalTagsA (m : TagMapping) (tags : String) : String :=
  let candidates := (charRuns isMystemLowerChar tags.data).map String.mk
  let resolved := candidates.foldl (fun ud tag => specAssignTagA m tag ud) []
  joinWith pipeStr ((List.insertionSort keyLe resolved).map formatPair)

/-- Model of `MystemTagConverter.convert_pos` (lines 218–223):
`re.search(r'[A-Z]+', tags)[0]` subscripts the search result (raising
`TypeError` when there is no match, modelled by `none`), then indexes the
`pos` table (raising `KeyError` when absent, modelled by `none`). -/
def mystemConvertPos (m : TagMapping) (tags : String) : Option String :=
  match charRuns isUpperAsciiChar tags.data with
  | [] => none
  | r :: _ => m catPos (String.mk r)

/-- The structured OpenCorpora tag (`OpencorporaTagProtocol`): the four
grammeme fields read by `OpenCorporaTagConverter.convert_morphological_tags`.
`none` models a `None` attribute (pymorphy yields `None` or a nonempty
grammeme string, so Python truthiness of the attribute is `isSome`). -/
structure OpencorporaTag where
  «case» : Option String := none
  number : Option String := none
  gender : Option String := none
  animacy : Option String := none
deriving DecidableEq, Repr

/-- The insertion-ordered dict `parsed_tags` of lines 242–247: the four
fields in declaration order `case, number, gender, animacy`. -/
def openCorporaParsedTags (t : OpencorporaTag) : List (String × Option String) :=
  [(catCase, t.«case»), (catNumber, t.number), (catGender, t.gender),
    (catAnimacy, t.animacy)]

/-- The loop body of lines 250–253: `if value and value in
self._tag_mapping.get(category, {}): tags_list.append(f'{category}={...}')`. -/
def ocStep (m : TagMapping) (acc : List String) (cv : String × Option String) :
    List String :=
  match cv.2 with
  | some v =>
    match m cv.1 v with
    | some mapped => acc ++ [cv.1 ++ eqSignStr ++ mapped]
    | none => acc
  | none => acc

/-- Model of `OpenCorporaTagConverter.convert_morphological_tags` (lines 238–255):
iterate the `parsed_tags` dict in insertion order, appending
`f'{category}={mapped_value}'` for each truthy field whose value is in the
category's table, then pipe-join. -/
def openCorporaConvertMorphologicalTags (m : TagMapping) (t : OpencorporaTag) : String :=
  joinWith pipeStr ((openCorporaParsedTags t).foldl (ocStep m) [])

/-- One optional `category=value` entry, the spec's words for Variant B:
a field contributes exactly when it is present and mappable. -/
def ocEntry (m : TagMapping) (cv : String × Option String) : Option String :=
  (cv.2.bind (m cv.1)).map (fun mv => cv.1 ++ eqSignStr ++ mv)

/-- Follows the spec's words for Variant B: each present and mappable field
contributes one `category=value` pair, output joined with `|` in
field-declaration order (no sort). -/
def specConvertMorphologicalTagsB (m : TagMapping) (t : OpencorporaTag) : String :=
  joinWith pipeStr ((openCorporaParsedTags t).filterMap (ocEntry m))

/-! ### Morphological analysis pipeline (`pipeline.py`, lines 258–321) -/

/-- A Mystem lexical analysis candidate: `{'lex': ..., 'gr': ...}`. -/
structure MystemAnalysis where
  lex : String
  gr : String
deriving DecidableEq, Repr

/-- A raw token record returned by `Mystem().analyze`: surface text plus the
candidate analyses (`[]` models a missing or empty `'analysis'` key, which
the source treats identically at line 291). -/
structure MystemToken where
  text : String
  analysis : List MystemAnalysis := []
deriving DecidableEq, Repr

/-- The external collaborators and the configured converter, all treated as
pure functions: the sentence splitter (`split_by_sentence`), the analyzer
(`Mystem().analyze`), and the two conversion operations of the configured
`MystemTagConverter` with its mapping table fixed.  The conversions are total
here because a conversion exception aborts the whole run (spec §4.3); runs
that complete are what the pipeline theorems describe. -/
structure PipelineEnv where
  split : String → List String
  analyze : String → List MystemToken
  convPos : String → String
  convTags : String → String

/-- The filter `word_regex.match(token['text'])` with
`word_regex = re.compile(r'\w+|[.]')` (lines 277, 285).  `re.match` anchors
at the start only, so it succeeds exactly when the text is nonempty and its
first character is a word character or a period. -/
def keepToken (text : String) : Bool :=
  match text.data with
  | [] => false
  | c :: _ => isWordChar c || c == '.'

/-- Model of `token['text'].replace(' ', '')` (line 288). -/
def stripSpaces (text : String) : String :=
  String.mk (text.data.filter (fun c => c != ' '))

/-- The classification of lines 290–301: alphabetic tokens take the first
analysis candidate (falling back to `X` when there is none), digit tokens
become `NUM`, everything else `PUNCT`. -/
def classifyToken (env : PipelineEnv) (tok : MystemToken)
    (text : String) : MorphologicalTokenDTO :=
  if isAlphaPy text then
    match tok.analysis with
    | a :: _ => ⟨a.lex, env.convPos a.gr, env.convTags a.gr⟩
    | [] => ⟨text, xPosStr, emptyStr⟩
  else if isDigitPy text then ⟨text, numPosStr, emptyStr⟩
  else ⟨text, punctPosStr, emptyStr⟩

/-- The per-sentence token loop of lines 284–306: skip tokens failing the
filter, strip spaces, classify, and assign the running 1-based counter. -/
def processTokens (env : PipelineEnv) :
    List MystemToken → Nat → List ConlluToken
  | [], _ => []
  | tok :: rest, counter =>
    if keepToken tok.text then
      let text := stripSpaces tok.text
      { text := text, position := counter + 1,
        morph := classifyToken env tok text }
        :: processTokens env rest (counter + 1)
    else processTokens env rest counter

/-- Model of `MorphologicalAnalysisPipeline._process` (lines 272–311): one
`ConlluSentence` per sentence of the splitter, positioned by enumeration
index, holding the processed tokens of that sentence. -/
def processText (env : PipelineEnv) (text : String) : List ConlluSentence :=
  (env.split text).enum.map
    (fun p => ⟨p.1, p.2, processTokens env (env.analyze p.2) 0⟩)

/-! ### Corpus manager (`pipeline.py`, lines 18–90) -/

/-- The exceptions of the validation path: built-in `FileNotFoundError` and
`NotADirectoryError`, plus the module's `EmptyDirectoryError` and
`InconsistentDatasetError`. -/
inductive PipelineError where
  | fileNotFoundError
  | notADirectoryError
  | emptyDirectoryError
  | inconsistentDatasetError
deriving DecidableEq, Repr

/-- A dataset file as seen by validation: the leading numeric ID parsed from
its name and its size in bytes (`file.stat().st_size`). -/
structure DatasetFile where
  id : Nat
  size : Nat
deriving DecidableEq, Repr

/-- Python `sorted(...)` over the parsed IDs (ascending). -/
def sortIds (ids : List Nat) : List Nat := List.insertionSort (· ≤ ·) ids

/-- The gap check of lines 67–73: some consecutive members of the
ascending-sorted ID list differ by more than 1. -/
def hasGap (ids : List Nat) : Bool :=
  (ids.zip ids.tail).any (fun p => decide (p.2 - p.1 > 1))

/-- Model of `CorpusManager._validate_dataset` (lines 47–76), after the filesystem
existence/directory checks (outside the model): empty raw listing, count
mismatch, raw-ID gaps, meta-ID gaps, zero-size files, in the source's
order. -/
def validateDataset (raw meta : List DatasetFile) : Except PipelineError Unit :=
  if raw.isEmpty then .error .emptyDirectoryError
  else if raw.length ≠ meta.length then .error .inconsistentDatasetError
  else if hasGap (sortIds (raw.map DatasetFile.id)) then .error .inconsistentDatasetError
  else if hasGap (sortIds (meta.map DatasetFile.id)) then .error .inconsistentDatasetError
  else if (raw ++ meta).any (fun f => f.size == 0) then .error .inconsistentDatasetError
  else .ok ()

/-- Modelled from the spec: an `Article` (from `core_utils`, not under
`src/`): identity, owned raw text, and the sentence sequence attached once
by the pipeline (`set_conllu_sentences`). -/
structure Article where
  id : Nat
  text : String
  sentences : List ConlluSentence := []
deriving DecidableEq, Repr

/-- A raw file as seen by `_scan_dataset`: parsed ID and content, listed in
`glob` enumeration order — which is arbitrary directory order, not
necessarily ascending by ID. -/
structure RawEntry where
  id : Nat
  text : String
deriving DecidableEq, Repr

/-- Model of `CorpusManager._scan_dataset` (lines 78–84): register each entry in
enumeration order (`from_raw` modelled from the spec: it builds an article
from the raw file's content with no sentences yet). -/
def scanDataset (files : List RawEntry) : List Article :=
  files.map (fun f => { id := f.id, text := f.text })

/-- Model of `CorpusManager.__init__` (lines 38–45): `_validate_dataset()` runs before
`_scan_dataset()`, so a validation error means no article is ever loaded
into the registry. -/
def constructCorpusManager (raw meta : List DatasetFile)
    (files : List RawEntry) : Except PipelineError (List Article) :=
  match validateDataset raw meta with
  | .error e => .error e
  | .ok _ => .ok (scanDataset files)

/-! ### Pipeline run and output artifacts -/

/-- The three per-article output artifacts.  `to_cleaned`/`to_conllu` live in
`core_utils` (not under `src/`); modelled from the spec: the cleaned-text
artifact holds the cleaned sentences one per line, and each CONLL-U artifact
is the concatenation of the sentences' CONLL-U texts (without and with
morphological features). -/
structure Artifacts where
  cleaned : String
  conlluNoTags : String
  conlluWithTags : String
deriving DecidableEq, Repr

def cleanedArtifact (ss : List ConlluSentence) : String :=
  joinWith newlineStr (ss.map ConlluSentence.get_cleaned_sentence)

def conlluArtifact (includeMorphologicalTags : Bool)
    (ss : List ConlluSentence) : String :=
  String.join (ss.map (fun s => s.get_conllu_text includeMorphologicalTags))

/-- The three artifacts computed from an article's attached sentences. -/
def articleArtifacts (a : Article) : Artifacts :=
  ⟨cleanedArtifact a.sentences, conlluArtifact false a.sentences,
    conlluArtifact true a.sentences⟩

/-- The output file store, keyed by article ID (each article's three
artifact files, written together). -/
def Store : Type := Nat → Option Artifacts

def writeStore (st : Store) (k : Nat) (v : Artifacts) : Store :=
  fun q => if q = k then some v else st q

def emptyStore : Store := fun _ => none

/-- Model of `article.set_conllu_sentences(self._process(article.text))`. -/
def processArticle (env : PipelineEnv) (a : Article) : Article :=
  { a with sentences := processText env a.text }

/-- Model of `MorphologicalAnalysisPipeline.run` (lines 313–321): for each article of
the registry in order, attach the processed sentences, then persist the
cleaned text and the two CONLL-U artifacts. -/
def runPipeline (env : PipelineEnv) (st : Store) :
    List Article → List Article × Store
  | [] => ([], st)
  | a :: rest =>
    let a2 := processArticle env a
    let st2 := writeStore st a2.id (articleArtifacts a2)
    let r := runPipeline env st2 rest
    (a2 :: r.1, r.2)

/-! ### Theorems -/

/-- C2: for every `ConlluToken` and every flag value, the serialized line
splits on tabs into exactly 10 fields, namely `position, text, lemma, pos,
"_", feats, "0", "root", "_", "_"`, where `feats` is `"_"` whenever the flag
disables feature output or the computed tags string is empty, and is the
computed tags string otherwise (under the hypothesis that the token's own
strings contain no tab, without which no tab-separated format is
well-defined). -/
theorem conllu_token_line_ten_fields (t : ConlluToken) (flag : Bool)
    (htext : ∀ c ∈ t.text.data, c ≠ '\t')
    (hlemma : ∀ c ∈ t.morph.«lemma».data, c ≠ '\t')
    (hpos : ∀ c ∈ t.morph.pos.data, c ≠ '\t')
    (htags : ∀ c ∈ t.morph.tags.data, c ≠ '\t') :
    splitOnCharList '\t' (t.get_conllu_text flag).data
      = (t.conlluFields flag).map String.data
    ∧ (t.conlluFields flag).length = 10
    ∧ t.conlluFields flag
      = [Nat.repr t.position, t.text, t.morph.«lemma», t.morph.pos, underscoreStr,
          if flag = true ∧ t.morph.tags ≠ emptyStr then t.morph.tags else underscoreStr,
          zeroStr, rootStr, underscoreStr, underscoreStr] := by
  refine ⟨?_, rfl, rfl⟩
  unfold ConlluToken.get_conllu_text
  rw [joinWith_data '\t' tabStr rfl]
  apply splitOnCharList_joinWithChar
  · simp [ConlluToken.conlluFields]
  · intro pt hpt
    simp only [ConlluToken.conlluFields, List.map_cons, List.map_nil,
      List.mem_cons, List.not_mem_nil, or_false] at hpt
    rcases hpt with h | h | h | h | h | h | h | h | h | h
    · exact h ▸ natRepr_ne_tab t.position
    · exact h ▸ htext
    · exact h ▸ hlemma
    · exact h ▸ hpos
    · exact h ▸ (by decide : ∀ c ∈ underscoreStr.data, c ≠ '\t')
    · subst h
      split
      · exact htags
      · decide
    · exact h ▸ (by decide : ∀ c ∈ zeroStr.data, c ≠ '\t')
    · exact h ▸ (by decide : ∀ c ∈ rootStr.data, c ≠ '\t')
    · exact h ▸ (by decide : ∀ c ∈ underscoreStr.data, c ≠ '\t')
    · exact h ▸ (by decide : ∀ c ∈ underscoreStr.data, c ≠ '\t')

def exTokenText : String := "Кот"
def exLemmaStr : String := "кот"
def exPosStr : String := "NOUN"
def exTagsStr : String := "Animacy=Anim|Case=Nom"

def exToken : ConlluToken :=
  { text := exTokenText, position := 1,
    morph := { «lemma» := exLemmaStr, pos := exPosStr, tags := exTagsStr } }

/-- Witness for C2 at a concrete token with features enabled. -/
theorem conllu_token_line_ten_fields_witness :
    splitOnCharList '\t' (exToken.get_conllu_text true).data
      = (exToken.conlluFields true).map String.data
    ∧ (exToken.conlluFields true).length = 10
    ∧ exToken.conlluFields true
      = [Nat.repr exToken.position, exToken.text, exToken.morph.«lemma»,
          exToken.morph.pos, underscoreStr,
          if true = true ∧ exToken.morph.tags ≠ emptyStr
          then exToken.morph.tags else underscoreStr,
          zeroStr, rootStr, underscoreStr, underscoreStr] :=
  conllu_token_line_ten_fields exToken true (by decide) (by decide)
    (by decide) (by decide)

theorem validateDataset_inconsistent (raw meta : List DatasetFile)
    (hne : raw.isEmpty = false)
    (hbad : raw.length ≠ meta.length
      ∨ hasGap (sortIds (raw.map DatasetFile.id)) = true
      ∨ hasGap (sortIds (meta.map DatasetFile.id)) = true
      ∨ ∃ f ∈ raw ++ meta, f.size = 0) :
    validateDataset raw meta = .error .inconsistentDatasetError := by
  by_cases h1 : raw.length = meta.length
  · by_cases h2 : hasGap (sortIds (raw.map DatasetFile.id)) = true
    · simp [validateDataset, hne, h2]
    · by_cases h3 : hasGap (sortIds (meta.map DatasetFile.id)) = true
      · simp [validateDataset, hne, h3]
      · have h4 : (raw ++ meta).any (fun f => f.size == 0) = true := by
          rcases hbad with h | h | h | ⟨f, hf, hsz⟩
          · exact absurd h1 h
          · exact absurd h h2
          · exact absurd h h3
          · exact List.any_eq_true.mpr ⟨f, hf, by simp [hsz]⟩
        simp [validateDataset, hne, h1, h2, h3, h4]
  · simp [validateDataset, hne, h1]

theorem validateDataset_accepts (raw meta : List DatasetFile)
    (hne : raw.isEmpty = false)
    (hcount : raw.length = meta.length)
    (hraw : hasGap (sortIds (raw.map DatasetFile.id)) = false)
    (hmeta : hasGap (sortIds (meta.map DatasetFile.id)) = false)
    (hsize : ∀ f ∈ raw ++ meta, f.size ≠ 0) :
    validateDataset raw meta = .ok () := by
  have h4 : (raw ++ meta).any (fun f => f.size == 0) = false := by
    rw [List.any_eq_false]
    intro f hf
    simp [hsize f hf]
  simp [validateDataset, hne, hcount, hraw, hmeta, h4]

/-- C5: whenever the raw/meta counts differ, or the ascending-sorted raw IDs
(or, independently, the sorted meta IDs) contain a gap greater than 1, or
some raw or meta file is zero bytes, `CorpusManager` construction fails with
`InconsistentDatasetError` — and, since `_validate_dataset` runs before
`_scan_dataset`, no article is loaded into the registry (the construction
result carries no registry).  The hypothesis `raw ≠ []` reflects that the
empty-directory check precedes these checks in the source. -/
theorem corpus_manager_rejects_inconsistent (raw meta : List DatasetFile)
    (files : List RawEntry) (hne : raw ≠ [])
    (hbad : raw.length ≠ meta.length
      ∨ hasGap (sortIds (raw.map DatasetFile.id)) = true
      ∨ hasGap (sortIds (meta.map DatasetFile.id)) = true
      ∨ ∃ f ∈ raw ++ meta, f.size = 0) :
    constructCorpusManager raw meta files
      = .error PipelineError.inconsistentDatasetError := by
  have hne2 : raw.isEmpty = false := by
    cases raw with
    | nil => exact absurd rfl hne
    | cons a l => rfl
  unfold constructCorpusManager
  rw [validateDataset_inconsistent raw meta hne2 hbad]

def rawFilesGapEx : List DatasetFile := [⟨1, 7⟩, ⟨2, 7⟩, ⟨4, 7⟩]
def metaFilesGapEx : List DatasetFile := [⟨1, 3⟩, ⟨2, 3⟩, ⟨4, 3⟩]

/-- Witness for C5: the spec's Scenario 1 — raw IDs `{1,2,4}` with matching
meta IDs are rejected (gap between 2 and 4). -/
theorem corpus_manager_rejects_inconsistent_witness :
    constructCorpusManager rawFilesGapEx metaFilesGapEx []
      = .error PipelineError.inconsistentDatasetError :=
  corpus_manager_rejects_inconsistent rawFilesGapEx metaFilesGapEx []
    (by decide) (Or.inr (Or.inl (by decide)))

/-- C6: whenever the raw count equals the meta count, neither sorted ID list
has a gap greater than 1, and no file is zero bytes, validation succeeds and
construction returns the scanned registry — the raw-ID multiset need not
equal the meta-ID multiset and the minimum ID need not be 1 (the witness
below exercises exactly such a dataset). -/
theorem corpus_manager_accepts_locally_contiguous (raw meta : List DatasetFile)
    (files : List RawEntry) (hne : raw ≠ [])
    (hcount : raw.length = meta.length)
    (hraw : hasGap (sortIds (raw.map DatasetFile.id)) = false)
    (hmeta : hasGap (sortIds (meta.map DatasetFile.id)) = false)
    (hsize : ∀ f ∈ raw ++ meta, f.size ≠ 0) :
    validateDataset raw meta = .ok ()
    ∧ constructCorpusManager raw meta files = .ok (scanDataset files) := by
  have hne2 : raw.isEmpty = false := by
    cases raw with
    | nil => exact absurd rfl hne
    | cons a l => rfl
  have hok := validateDataset_accepts raw meta hne2 hcount hraw hmeta hsize
  refine ⟨hok, ?_⟩
  unfold constructCorpusManager
  rw [hok]

def rawFilesDisjointEx : List DatasetFile := [⟨2, 9⟩, ⟨3, 5⟩]
def metaFilesDisjointEx : List DatasetFile := [⟨7, 4⟩, ⟨8, 2⟩]

/-- Witness for C6: raw IDs `{2,3}` and meta IDs `{7,8}` — equal counts,
locally contiguous, nonzero sizes — pass validation even though the two ID
sets are disjoint and neither starts at 1. -/
theorem corpus_manager_accepts_locally_contiguous_witness :
    validateDataset rawFilesDisjointEx metaFilesDisjointEx = .ok ()
    ∧ constructCorpusManager rawFilesDisjointEx metaFilesDisjointEx []
        = .ok (scanDataset []) :=
  corpus_manager_accepts_locally_contiguous rawFilesDisjointEx
    metaFilesDisjointEx [] (by decide) (by decide) (by decide) (by decide)
    (by decide)

/-- C10: Variant A's `convert_pos` is partial — it raises (returns `none`)
when the native tag string has no run of ASCII uppercase letters, and when
its first such run is not a key of the `pos` table; it returns normally
exactly when the first uppercase run exists and is in the table, with the
table's value. -/
theorem mystem_convert_pos_raises (m : TagMapping) (tags : String) :
    ((∀ c ∈ tags.data, isUpperAsciiChar c = false) → mystemConvertPos m tags = none)
    ∧ (∀ r, (charRuns isUpperAsciiChar tags.data).head? = some r →
        m catPos (String.mk r) = none → mystemConvertPos m tags = none)
    ∧ ∀ v, mystemConvertPos m tags = some v →
        ∃ r, (charRuns isUpperAsciiChar tags.data).head? = some r
          ∧ m catPos (String.mk r) = some v := by
  refine ⟨?_, ?_, ?_⟩
  · intro h
    unfold mystemConvertPos
    rw [charRuns_eq_nil _ _ h]
  · intro r hr hm
    unfold mystemConvertPos
    cases hcr : charRuns isUpperAsciiChar tags.data with
    | nil => rfl
    | cons r0 rs =>
      rw [hcr] at hr
      simp only [List.head?_cons, Option.some.injEq] at hr
      rw [hr]
      exact hm
  · intro v hv
    unfold mystemConvertPos at hv
    cases hcr : charRuns isUpperAsciiChar tags.data with
    | nil =>
      rw [hcr] at hv
      exact absurd hv (by simp)
    | cons r0 rs =>
      rw [hcr] at hv
      exact ⟨r0, by rfl, hv⟩

def noneTagMapping : TagMapping := fun _ _ => none
def lowerOnlyStr : String := "abc"

/-- Witness for C10: a tag string with no ASCII uppercase run makes
`convert_pos` raise. -/
theorem mystem_convert_pos_raises_witness :
    mystemConvertPos noneTagMapping lowerOnlyStr = none :=
  (mystem_convert_pos_raises noneTagMapping lowerOnlyStr).1 (by decide)

theorem ocFoldl_eq_filterMap (m : TagMapping)
    (l : List (String × Option String)) (acc : List String) :
    l.foldl (ocStep m) acc = acc ++ l.filterMap (ocEntry m) := by
  induction l generalizing acc with
  | nil => simp
  | cons cv l ih =>
    rw [List.foldl_cons, List.filterMap_cons, ih]
    cases hv : cv.2 with
    | none => simp [ocStep, ocEntry, hv]
    | some v =>
      cases hm : m cv.1 v with
      | none => simp [ocStep, ocEntry, hv, hm]
      | some mapped => simp [ocStep, ocEntry, hv, hm]

def nomValStr : String := "Nom"
def animValStr : String := "Anim"
def identityTagMapping : TagMapping := fun _ v => some v
def ocExTag : OpencorporaTag := { «case» := some nomValStr, animacy := some animValStr }
def ocDeclOrderOut : String := "case=Nom|animacy=Anim"
def ocNameSortedOut : String := "animacy=Anim|case=Nom"

/-- C7: Variant B's `convert_morphological_tags` reads exactly the four
fields `case, number, gender, animacy` in that fixed order; each present and
mappable field contributes one `category=value` pair; the output is joined
with `|` in field-declaration order — and that order is not the
sorted-by-category-name order, as the concrete instance shows (`case=...`
precedes `animacy=...`). -/
theorem opencorpora_variant_b_field_order :
    (∀ (m : TagMapping) (t : OpencorporaTag),
      openCorporaConvertMorphologicalTags m t = specConvertMorphologicalTagsB m t)
    ∧ openCorporaConvertMorphologicalTags identityTagMapping ocExTag = ocDeclOrderOut
    ∧ ocDeclOrderOut ≠ ocNameSortedOut := by
  refine ⟨?_, by decide, by decide⟩
  intro m t
  unfold openCorporaConvertMorphologicalTags specConvertMorphologicalTagsB
  rw [ocFoldl_eq_filterMap, List.nil_append]

theorem processTokens_texts (env : PipelineEnv) (toks : List MystemToken) (n : Nat) :
    (processTokens env toks n).map ConlluToken.text
      = ((toks.filter (fun tk => keepToken tk.text)).map
          (fun tk => stripSpaces tk.text)) := by
  induction toks generalizing n with
  | nil => rfl
  | cons tk rest ih =>
    by_cases h : keepToken tk.text
    · simp [processTokens, h, List.filter_cons, ih]
    · simp [processTokens, h, List.filter_cons, ih]

def periodStr : String := "."
def dotDotStr : String := ".."

/-- The filter of C3 as the claim states it: the surface text consists of
one or more word characters, or is exactly a single period. -/
def keepSpecC3 (text : String) : Bool :=
  (!text.data.isEmpty && text.data.all isWordChar) || text == periodStr

/-- A trivial environment (the counterexample below does not depend on the
collaborators). -/
def envTrivial : PipelineEnv :=
  { split := fun t => [t], analyze := fun _ => [],
    convPos := fun _ => emptyStr, convTags := fun _ => emptyStr }

/-- Counterexample for C3 as stated: the raw token `".."` is neither a run
of word characters nor exactly a single period, so the claim says it is
discarded — but the code's `re.match(r'\w+|[.]')` prefix-matches its first
character, so `_process` keeps it and emits a `ConlluToken` for it. -/
theorem token_filter_claim_counterexample :
    (processTokens envTrivial [{ text := dotDotStr }] 0).map ConlluToken.text
      = [dotDotStr]
    ∧ keepSpecC3 dotDotStr = false := by
  refine ⟨by decide, by decide⟩

/-- C3 amended: a raw token record is kept for classification if and only if
its surface text is nonempty and its first character is a word character or
a period (the `re.match` prefix semantics); each sentence's emitted tokens
are exactly the kept raw tokens, in order, with spaces stripped from their
text. -/
theorem token_filter_first_char (env : PipelineEnv) (text : String) :
    (∀ s ∈ processText env text,
      s.tokens.map ConlluToken.text
        = ((env.analyze s.text).filter (fun tk => keepToken tk.text)).map
            (fun tk => stripSpaces tk.text))
    ∧ ∀ t : String, keepToken t = true ↔
        ∃ c cs, t.data = c :: cs ∧ (isWordChar c = true ∨ c = '.') := by
  constructor
  · intro s hs
    unfold processText at hs
    rcases List.mem_map.mp hs with ⟨p, hp, rfl⟩
    exact processTokens_texts env (env.analyze p.2) 0
  · intro t
    unfold keepToken
    cases ht : t.data with
    | nil => simp
    | cons c cs =>
      constructor
      · intro h
        rcases Bool.or_eq_true_iff.mp h with h | h
        · exact ⟨c, cs, rfl, Or.inl h⟩
        · exact ⟨c, cs, rfl, Or.inr (by simpa using h)⟩
      · rintro ⟨c2, cs2, he, h2⟩
        obtain ⟨rfl, rfl⟩ : c2 = c ∧ cs2 = cs := by
          rw [List.cons.injEq] at he
          exact ⟨he.1.symm, he.2.symm⟩
        rcases h2 with h2 | h2
        · simp [h2]
        · simp [h2]

def abcStr : String := "ab c"
def bangStr : String := "?!"

/-- A concrete analyzer for the C3/C4 witnesses: one word token (with an
internal space to strip), one discarded punctuation token, one period. -/
def envWitness : PipelineEnv :=
  { split := fun t => [t],
    analyze := fun _ => [{ text := abcStr }, { text := bangStr }, { text := periodStr }],
    convPos := fun _ => emptyStr, convTags := fun _ => emptyStr }

/-- Witness for C3 (amended), instantiating the per-sentence equation at the
single sentence the witness environment produces. -/
theorem token_filter_first_char_witness :
    (ConlluSentence.mk 0 abcStr
        (processTokens envWitness (envWitness.analyze abcStr) 0)).tokens.map
          ConlluToken.text
      = ((envWitness.analyze abcStr).filter (fun tk => keepToken tk.text)).map
          (fun tk => stripSpaces tk.text) :=
  (token_filter_first_char envWitness abcStr).1
    (ConlluSentence.mk 0 abcStr (processTokens envWitness (envWitness.analyze abcStr) 0))
    (by decide)

theorem processTokens_positions (env : PipelineEnv) (toks : List MystemToken)
    (n : Nat) :
    (processTokens env toks n).map ConlluToken.position
      = List.range' (n + 1) (processTokens env toks n).length := by
  induction toks generalizing n with
  | nil => rfl
  | cons tk rest ih =>
    by_cases h : keepToken tk.text
    · simp [processTokens, h, ih, List.range'_succ]
    · simp [processTokens, h, ih]

/-- C4: in every processed article text, sentence positions are the
contiguous 0-based sequence over the splitter's sentences in enumeration
order, and within each sentence the kept tokens' positions are the
contiguous 1-based sequence `1, 2, ...` (filtered-out raw tokens never
consume a position: the positions list is exactly `range' 1 (number of kept
tokens)`). -/
theorem positions_contiguous (env : PipelineEnv) (text : String) :
    (processText env text).map ConlluSentence.position
      = List.range (env.split text).length
    ∧ ∀ s ∈ processText env text,
        s.tokens.map ConlluToken.position = List.range' 1 s.tokens.length := by
  constructor
  · unfold processText
    rw [List.map_map]
    exact List.enum_map_fst (env.split text)
  · intro s hs
    unfold processText at hs
    rcases List.mem_map.mp hs with ⟨p, hp, rfl⟩
    exact processTokens_positions env (env.analyze p.2) 0

/-- Witness for C4 at the concrete witness environment: the sentence list
has positions `[0]` and the kept tokens are numbered `1, 2` with no gap
(the discarded `"?!"` token consumed no position). -/
theorem positions_contiguous_witness :
    (processText envWitness abcStr).map ConlluSentence.position
      = List.range (envWitness.split abcStr).length
    ∧ (ConlluSentence.mk 0 abcStr
        (processTokens envWitness (envWitness.analyze abcStr) 0)).tokens.map
          ConlluToken.position
      = List.range' 1 (ConlluSentence.mk 0 abcStr
          (processTokens envWitness (envWitness.analyze abcStr) 0)).tokens.length :=
  ⟨(positions_contiguous envWitness abcStr).1,
    (positions_contiguous envWitness abcStr).2
      (ConlluSentence.mk 0 abcStr
        (processTokens envWitness (envWitness.analyze abcStr) 0))
      (by decide)⟩

/-! ### Store bookkeeping for the run theorems -/

def applyWrites (st : Store) (ws : List (Nat × Artifacts)) : Store :=
  ws.foldl (fun st2 kv => writeStore st2 kv.1 kv.2) st

/-- The value the write sequence `ws` leaves at key `k` (the last write to
`k` wins), or `none` when `ws` never writes `k`. -/
def lookupWrites : List (Nat × Artifacts) → Nat → Option Artifacts
  | [], _ => none
  | kv :: ws, k =>
    match lookupWrites ws k with
    | some v => some v
    | none => if kv.1 = k then some kv.2 else none

/-- The sequence of artifact writes `runPipeline` performs, in order. -/
def articleWrites (env : PipelineEnv) (articles : List Article) :
    List (Nat × Artifacts) :=
  articles.map (fun a =>
    ((processArticle env a).id, articleArtifacts (processArticle env a)))

theorem runPipeline_eq (env : PipelineEnv) (st : Store) (articles : List Article) :
    runPipeline env st articles
      = (articles.map (processArticle env), applyWrites st (articleWrites env articles)) := by
  induction articles generalizing st with
  | nil => rfl
  | cons a rest ih =>
    simp only [runPipeline, articleWrites, applyWrites, List.map_cons,
      List.foldl_cons]
    rw [ih]
    rfl

theorem applyWrites_apply (st : Store) (ws : List (Nat × Artifacts)) (k : Nat) :
    applyWrites st ws k
      = match lookupWrites ws k with
        | some v => some v
        | none => st k := by
  induction ws generalizing st with
  | nil => rfl
  | cons kv ws ih =>
    simp only [applyWrites, List.foldl_cons] at ih ⊢
    rw [ih]
    cases hl : lookupWrites ws k with
    | some v => simp [lookupWrites, hl]
    | none =>
      simp only [lookupWrites, hl]
      unfold writeStore
      by_cases he : kv.1 = k
      · simp [he]
      · simp [he, Ne.symm he]

theorem applyWrites_idem (st : Store) (ws : List (Nat × Artifacts)) :
    applyWrites (applyWrites st ws) ws = applyWrites st ws := by
  funext k
  rw [applyWrites_apply, applyWrites_apply]
  cases hl : lookupWrites ws k with
  | some v => rfl
  | none => rfl

theorem processArticle_idem (env : PipelineEnv) (a : Article) :
    processArticle env (processArticle env a) = processArticle env a := rfl

/-- C9: running the pipeline twice over an unchanged corpus (articles plus
output store, with the splitter and analyzer pure) is the same as running it
once — every output artifact is byte-identical. -/
theorem pipeline_run_idempotent (env : PipelineEnv) (st : Store)
    (articles : List Article) :
    runPipeline env ((runPipeline env st articles).2) ((runPipeline env st articles).1)
      = runPipeline env st articles := by
  have hcomp : processArticle env ∘ processArticle env = processArticle env :=
    funext (processArticle_idem env)
  have hw : articleWrites env (articles.map (processArticle env))
      = articleWrites env articles := by
    unfold articleWrites
    rw [List.map_map]
    have : (fun a => ((processArticle env a).id, articleArtifacts (processArticle env a)))
        ∘ processArticle env
        = fun a => ((processArticle env a).id, articleArtifacts (processArticle env a)) := by
      funext a
      show ((processArticle env (processArticle env a)).id,
        articleArtifacts (processArticle env (processArticle env a))) = _
      rw [processArticle_idem]
    rw [this]
  have h1 : (runPipeline env st articles).1 = articles.map (processArticle env) := by
    rw [runPipeline_eq]
  have h2 : (runPipeline env st articles).2
      = applyWrites st (articleWrites env articles) := by
    rw [runPipeline_eq]
  rw [h1, h2,
    runPipeline_eq env (applyWrites st (articleWrites env articles))
      (articles.map (processArticle env)),
    runPipeline_eq env st articles]
  simp only [Prod.mk.injEq]
  constructor
  · rw [List.map_map, hcomp]
  · rw [hw, applyWrites_idem]

theorem lookupWrites_eq_none (ws : List (Nat × Artifacts)) (k : Nat)
    (h : k ∉ ws.map Prod.fst) : lookupWrites ws k = none := by
  induction ws with
  | nil => rfl
  | cons kv ws ih =>
    have h1 : k ∉ ws.map Prod.fst := fun hm => h (by
      rw [List.map_cons]; exact List.mem_cons_of_mem _ hm)
    have h2 : kv.1 ≠ k := fun he => h (by
      rw [List.map_cons, he]; exact List.mem_cons_self k _)
    simp [lookupWrites, ih h1, h2]

theorem lookupWrites_of_nodup (ws : List (Nat × Artifacts))
    (hnd : (ws.map Prod.fst).Nodup) (k : Nat) (v : Artifacts)
    (hin : (k, v) ∈ ws) : lookupWrites ws k = some v := by
  induction ws with
  | nil => cases hin
  | cons kv ws ih =>
    rw [List.map_cons, List.nodup_cons] at hnd
    rcases List.mem_cons.mp hin with he | hm
    · have hk : lookupWrites ws k = none := by
        apply lookupWrites_eq_none
        rw [← he] at hnd
        exact hnd.1
      simp [lookupWrites, hk, ← he]
    · simp [lookupWrites, ih hnd.2 hm]

def rawTextAStr : String := "aa"
def rawTextBStr : String := "bb"
def scanOutOfOrderEx : List RawEntry := [⟨2, rawTextAStr⟩, ⟨1, rawTextBStr⟩]

/-- Counterexample for C8 as stated: the registry is built in `glob`
enumeration order and `run()` iterates it in that insertion order — with
the enumeration `[2_raw.txt, 1_raw.txt]` the pipeline processes article 2
before article 1, not in ascending ID order. -/
theorem run_order_counterexample :
    ((runPipeline envTrivial emptyStore (scanDataset scanOutOfOrderEx)).1.map
        Article.id = [2, 1])
    ∧ ¬ List.Sorted (· ≤ ·)
        ((runPipeline envTrivial emptyStore (scanDataset scanOutOfOrderEx)).1.map
          Article.id) := by
  have h : (runPipeline envTrivial emptyStore (scanDataset scanOutOfOrderEx)).1.map
      Article.id = [2, 1] := by
    rw [runPipeline_eq]
    rfl
  refine ⟨h, ?_⟩
  rw [h]
  decide

/-- C8 amended: `run()` consumes all articles of the registry in registry
(scan-enumeration) order — not necessarily ascending ID order — and for
each article persists the three artifacts (cleaned text, CONLL-U without
features, CONLL-U with features) under its ID. -/
theorem run_processes_all_articles (env : PipelineEnv) (st : Store)
    (files : List RawEntry) (hnd : (files.map RawEntry.id).Nodup) :
    ((runPipeline env st (scanDataset files)).1.map Article.id
      = files.map RawEntry.id)
    ∧ ∀ f ∈ files,
        (runPipeline env st (scanDataset files)).2 f.id
          = some (articleArtifacts (processArticle env { id := f.id, text := f.text })) := by
  constructor
  · rw [runPipeline_eq]
    show ((scanDataset files).map (processArticle env)).map Article.id = _
    rw [List.map_map]
    unfold scanDataset
    rw [List.map_map]
    rfl
  · intro f hf
    rw [runPipeline_eq]
    show applyWrites st (articleWrites env (scanDataset files)) f.id = _
    have hws : articleWrites env (scanDataset files)
        = files.map (fun g =>
            (g.id, articleArtifacts (processArticle env { id := g.id, text := g.text }))) := by
      unfold articleWrites scanDataset
      rw [List.map_map]
      rfl
    rw [hws, applyWrites_apply]
    have hkeys : ((files.map (fun g =>
        (g.id, articleArtifacts (processArticle env { id := g.id, text := g.text })))).map
          Prod.fst).Nodup := by
      rw [List.map_map]
      exact hnd
    rw [lookupWrites_of_nodup _ hkeys f.id _ (List.mem_map.mpr ⟨f, hf, rfl⟩)]

def scanDistinctEx : List RawEntry := [⟨3, rawTextAStr⟩, ⟨1, rawTextBStr⟩]

/-- Witness for C8 (amended) at a two-article registry with distinct IDs. -/
theorem run_processes_all_articles_witness :
    ((runPipeline envTrivial emptyStore (scanDataset scanDistinctEx)).1.map
        Article.id = scanDistinctEx.map RawEntry.id)
    ∧ (runPipeline envTrivial emptyStore (scanDataset scanDistinctEx)).2 3
        = some (articleArtifacts (processArticle envTrivial { id := 3, text := rawTextAStr })) :=
  ⟨(run_processes_all_articles envTrivial emptyStore scanDistinctEx (by decide)).1,
    (run_processes_all_articles envTrivial emptyStore scanDistinctEx (by decide)).2
      ⟨3, rawTextAStr⟩ (by decide)⟩

/-! ### Variant A refinement (C1) -/

theorem mystemAssignTag_eq_find (m : TagMapping) (tag : String)
    (ud : List (String × String)) (cats : List String) :
    mystemAssignTag m tag ud cats
      = match cats.find?
            (fun cat => (m cat tag).isSome && (alistLookup ud cat).isNone) with
        | some cat =>
          match m cat tag with
          | some v => ud ++ [(cat, v)]
          | none => ud
        | none => ud := by
  induction cats with
  | nil => rfl
  | cons cat cats ih =>
    cases hm : m cat tag with
    | none =>
      have hcond : ((m cat tag).isSome && (alistLookup ud cat).isNone) = false := by
        rw [hm]
        rfl
      simp only [mystemAssignTag, hm, List.find?, hcond]
      exact ih
    | some v =>
      cases hl : alistLookup ud cat with
      | none =>
        simp only [mystemAssignTag, hm, hl, List.find?, Option.isSome_some,
          Option.isNone_none, Bool.and_self]
      | some w =>
        have hcond : ((m cat tag).isSome && (alistLookup ud cat).isNone) = false := by
          rw [hm, hl]
          rfl
        simp only [mystemAssignTag, hm, hl, List.find?, hcond]
        exact ih

theorem mystemAssignTag_eq_spec (m : TagMapping) (tag : String)
    (ud : List (String × String)) :
    mystemAssignTag m tag ud mystemPriorityCategories = specAssignTagA m tag ud :=
  mystemAssignTag_eq_find m tag ud mystemPriorityCategories

theorem alistLookup_eq_none_iff (ud : List (String × String)) (cat : String) :
    alistLookup ud cat = none ↔ cat ∉ ud.map Prod.fst := by
  constructor
  · intro h hmem
    rcases List.mem_map.mp hmem with ⟨x, hx, he⟩
    unfold alistLookup at h
    rw [Option.map_eq_none', List.find?_eq_none] at h
    exact h x hx (beq_iff_eq.mpr he)
  · intro h
    unfold alistLookup
    rw [Option.map_eq_none', List.find?_eq_none]
    intro x hx hbeq
    exact h (List.mem_map.mpr ⟨x, hx, beq_iff_eq.mp hbeq⟩)

theorem mystemAssignTag_nodupKeys (m : TagMapping) (tag : String)
    (ud : List (String × String)) (cats : List String)
    (h : (ud.map Prod.fst).Nodup) :
    ((mystemAssignTag m tag ud cats).map Prod.fst).Nodup := by
  induction cats with
  | nil => exact h
  | cons cat cats ih =>
    cases hm : m cat tag with
    | none =>
      simp only [mystemAssignTag, hm]
      exact ih
    | some v =>
      cases hl : alistLookup ud cat with
      | some w =>
        simp only [mystemAssignTag, hm, hl]
        exact ih
      | none =>
        simp only [mystemAssignTag, hm, hl]
        rw [List.map_append, List.nodup_append]
        refine ⟨h, List.nodup_singleton cat, ?_⟩
        intro a ha hb
        rw [List.map_cons, List.map_nil, List.mem_singleton] at hb
        subst hb
        exact (alistLookup_eq_none_iff ud a).mp hl ha

theorem foldl_mystemAssign_nodupKeys (m : TagMapping) (l : List String)
    (acc : List (String × String)) (h : (acc.map Prod.fst).Nodup) :
    ((l.foldl (fun ud tag => mystemAssignTag m tag ud mystemPriorityCategories)
        acc).map Prod.fst).Nodup := by
  induction l generalizing acc with
  | nil => exact h
  | cons tag l ih =>
    rw [List.foldl_cons]
    exact ih _ (mystemAssignTag_nodupKeys m tag acc mystemPriorityCategories h)

/-- On a pair list with pairwise-distinct keys, Python's pair sort and the
sort by category name alone agree. -/
theorem insertionSort_pairLe_eq_keyLe (l : List (String × String))
    (h : (l.map Prod.fst).Nodup) :
    List.insertionSort pairLe l = List.insertionSort keyLe l := by
  have hperm : List.Perm (List.insertionSort pairLe l) (List.insertionSort keyLe l) :=
    (List.perm_insertionSort pairLe l).trans (List.perm_insertionSort keyLe l).symm
  have hnd1 : ((List.insertionSort pairLe l).map Prod.fst).Nodup :=
    (((List.perm_insertionSort pairLe l).map Prod.fst).nodup_iff).mpr h
  have hnd2 : ((List.insertionSort keyLe l).map Prod.fst).Nodup :=
    (((List.perm_insertionSort keyLe l).map Prod.fst).nodup_iff).mpr h
  have hne1 : List.Pairwise (fun x y : String × String => x.1 ≠ y.1)
      (List.insertionSort pairLe l) := List.pairwise_map.mp hnd1
  have hne2 : List.Pairwise (fun x y : String × String => x.1 ≠ y.1)
      (List.insertionSort keyLe l) := List.pairwise_map.mp hnd2
  have hs1 : List.Pairwise keyLt (List.insertionSort pairLe l) := by
    have hsorted : List.Sorted pairLe (List.insertionSort pairLe l) :=
      List.sorted_insertionSort pairLe l
    refine (List.Pairwise.and hsorted hne1).imp ?_
    rintro a b ⟨hle, hne⟩
    rcases hle with hlt | ⟨he, _⟩
    · exact hlt
    · exact absurd he hne
  have hs2 : List.Pairwise keyLt (List.insertionSort keyLe l) := by
    have hsorted : List.Sorted keyLe (List.insertionSort keyLe l) :=
      List.sorted_insertionSort keyLe l
    refine (List.Pairwise.and hsorted hne2).imp ?_
    rintro a b ⟨hle, hne⟩
    exact lt_of_le_of_ne hle hne
  exact List.eq_of_perm_of_sorted hperm hs1 hs2

/-- C1: Variant A's `convert_morphological_tags` coincides, for every native
tag string and every mapping table, with the spec's description: all
lowercase-letter runs are extracted as candidates; each candidate goes to
the first category of the fixed priority order `(case, number, gender,
animacy, tense)` whose table contains it and which is not yet filled (at
most one value per category); the resolved `category=value` pairs are joined
with `|` sorted by category name. -/
theorem mystem_variant_a_refines (m : TagMapping) (tags : String) :
    mystemConvertMorphologicalTags m tags = specConvertMorphologicalTagsA m tags := by
  simp only [mystemConvertMorphologicalTags, specConvertMorphologicalTagsA]
  have hfun : (fun (ud : List (String × String)) (tag : String) =>
      mystemAssignTag m tag ud mystemPriorityCategories)
      = fun ud tag => specAssignTagA m tag ud := by
    funext ud tag
    exact mystemAssignTag_eq_spec m tag ud
  rw [insertionSort_pairLe_eq_keyLe _
    (foldl_mystemAssign_nodupKeys m _ [] (by simp))]
  rw [hfun]

end Pipeline
